import Mathlib

/-!
Verification of the MDX/HTML → Markdown converter (`mdx-md.py`).

The file shallowly embeds the two content-transforming functions of the
source, `convert_mdx_to_markdown` and `convert_html_to_markdown`, together
with the pieces of the Python standard library they use:

* each `re.sub` call is embedded as a left-to-right scanner that mirrors
  the Python regex engine's leftmost, non-overlapping matching on the
  concrete pattern of that call;
* `pathlib.Path(...).name`, `.parent` and the `/` operator are embedded
  over plain strings (POSIX separators);
* the filesystem is embedded as an association list from file paths to
  file contents, and `shutil.copy` as an insertion into that list.

Text is processed as `List Char`; `String` wrappers mirror the Python
signatures.  The substitution scanners take an explicit fuel argument
(instantiated with the length of the input by the wrappers) so that all
definitions are structurally recursive and evaluate by `decide`.
-/

namespace MdxMd

/-- The `{` character, written via its code point. -/
def lbrace : Char := Char.ofNat 123

/-- The `}` character, written via its code point. -/
def rbrace : Char := Char.ofNat 125

/-- The `'` (single-quote) character, written via its code point. -/
def squote : Char := Char.ofNat 39

/-- The `"` (double-quote) character. -/
def dquote : Char := Char.ofNat 34

/-- Split a character list at the first character satisfying `pred`:
returns the characters before it and the characters after it, or `none`
when no character satisfies `pred`.  This is how a regex character class
`[^X]*` followed by the literal `X` consumes input: the class cannot cross
an `X`, so the match ends exactly at the first `X`. -/
def splitUntilP (pred : Char → Bool) : List Char → Option (List Char × List Char)
  | [] => none
  | c :: cs =>
    if pred c then some ([], cs)
    else (splitUntilP pred cs).map (fun pr => (c :: pr.1, pr.2))

/-- Split a character list on every occurrence of `sep`, like Python's
`str.split`. -/
def splitOnChar (sep : Char) : List Char → List (List Char)
  | [] => [[]]
  | c :: cs =>
    if c = sep then [] :: splitOnChar sep cs
    else
      match splitOnChar sep cs with
      | [] => [[c]]
      | g :: gs => (c :: g) :: gs

/-- Embeds `pathlib.PurePosixPath(p).name`: the final path component, after
dropping empty components and `.` components (pathlib normalises those
away); empty when no such component exists (`""`, `"."`, `"/"`, …). -/
def pathNameL (p : List Char) : List Char :=
  ((splitOnChar '/' p).filter (fun comp => !(comp == []) && !(comp == ['.']))).getLastD []

/-- Embeds `pathlib.Path(p).name` on strings. -/
def pathName (p : String) : String :=
  String.mk (pathNameL p.data)

/-- Embeds `pathlib.Path(p).parent` rendered back to a string: drop the last
retained component; `.` for single-component relative paths, a leading
`/` preserved for absolute ones. -/
def pathParent (p : String) : String :=
  let comps := (splitOnChar '/' p.data).filter (fun comp => !(comp == []) && !(comp == ['.']))
  let par := comps.dropLast
  if p.data.head? = some '/' then
    String.mk ('/' :: (List.intercalate ['/'] par))
  else if par = [] then "."
  else String.mk (List.intercalate ['/'] par)

/-- Embeds `str(pathlib.Path(a) / b)`: `b` when absolute, otherwise `a` and `b`
joined with a separator (`.` and the empty path contribute nothing). -/
def joinPath (a b : String) : String :=
  if b.data.head? = some '/' then b
  else if a = "" ∨ a = "." then b
  else if a = "/" then "/" ++ b
  else a ++ "/" ++ b

/-! ### Filesystem model

An association list from path to file content; the head entry for a path
shadows older ones, so prepending models an overwriting copy. -/

/-- Filesystem: association list mapping a file path to its content. -/
abbrev FS := List (String × String)

/-- Existence check (`Path.exists`) (the converter only ever checks files it is
about to copy). -/
def fsExists (fs : FS) (p : String) : Bool :=
  (fs.lookup p).isSome

/-- Embeds `shutil.copy src dst`: insert an entry for `dst` holding the content
of `src` (shadowing, hence overwriting, an existing `dst`).  The source
exists whenever the converter calls this (it checks first). -/
def fsCopy (fs : FS) (src dst : String) : FS :=
  match fs.lookup src with
  | some content => (dst, content) :: fs
  | none => fs

/-! ### Step 1 and 2: `re.sub(r'<[^<>]+>', '', _)` and `re.sub(r'{[^{}]+}', '', _)`

A match at an opening delimiter needs at least one character that is
neither delimiter, followed by the closing delimiter; the class cannot
cross either delimiter, so the span runs to the first delimiter character
after the opener, which must be the closer. -/

/-- After the opening delimiter and one interior character: consume
`[^op cl]*` then the closing delimiter `cl`; `none` if `op` or the end of
input intervenes. -/
def delimEnd (op cl : Char) : List Char → Option (List Char)
  | [] => none
  | c :: cs =>
    if c = cl then some cs
    else if c = op then none
    else delimEnd op cl cs

/-- Try to match `[^op cl]+ cl` (the part of the pattern after the opening
delimiter); returns the input remaining after the match. -/
def delimMatch (op cl : Char) : List Char → Option (List Char)
  | [] => none
  | c :: cs =>
    if c = cl ∨ c = op then none
    else delimEnd op cl cs

/-- Embeds `re.sub` of the pattern `op [^op cl]+ cl` with empty replacement, with explicit fuel: scan left
to right; at an opening delimiter, delete the matched span and resume
after it, otherwise keep the character.  Fuel is consumed one unit per
examined position, so the wrappers pass the input length. -/
def stripDelimsF (op cl : Char) : Nat → List Char → List Char
  | 0, cs => cs
  | _ + 1, [] => []
  | f + 1, c :: cs =>
    if c = op then
      match delimMatch op cl cs with
      | some rest => stripDelimsF op cl f rest
      | none => c :: stripDelimsF op cl f cs
    else c :: stripDelimsF op cl f cs

/-- Line 40 of the source: `re.sub(r'<[^<>]+>', '', content)`. -/
def stripTags (cs : List Char) : List Char :=
  stripDelimsF '<' '>' cs.length cs

/-- Line 41 of the source: `re.sub(r'{[^{}]+}', '', content)`. -/
def stripBraces (cs : List Char) : List Char :=
  stripDelimsF lbrace rbrace cs.length cs

/-! ### Step 3: the Markdown-image rewrite

`re.sub(r'!\[([^\]]*)\]\(([^)]+)\)', lambda m: f'![{m.group(1)}](./images/{Path(m.group(2)).name})', content)`

After the literal `![`, the alt group runs to the first `]` (the class
`[^\]]*` cannot cross one), a literal `(` must follow, and the path group
runs to the first `)` and must be nonempty. -/

/-- Match the image pattern after its leading `![`: returns
`(alt, path, rest)` on success. -/
def imageMatch (cs : List Char) : Option (List Char × List Char × List Char) :=
  match splitUntilP (fun c => c = ']') cs with
  | none => none
  | some (alt, r1) =>
    match r1 with
    | '(' :: r2 =>
      match splitUntilP (fun c => c = ')') r2 with
      | none => none
      | some (path, r3) => if path = [] then none else some (alt, path, r3)
    | _ => none

/-- The image substitution with explicit fuel: at `![`, a successful match
is replaced by `![alt](./images/<basename>)` and scanning resumes after
the match; a failed match emits the `!` and rescans from the `[` (the
regex engine retries from the next position). -/
def rewriteImagesF : Nat → List Char → List Char
  | 0, cs => cs
  | _ + 1, [] => []
  | f + 1, c :: cs =>
    if c = '!' ∧ "[".data.isPrefixOf cs then
      match imageMatch (cs.drop 1) with
      | some (alt, path, rest) =>
        '!' :: '[' :: (alt ++ ']' :: '(' :: ("./images/".data ++ pathNameL path ++ ')' :: rewriteImagesF f rest))
      | none => c :: rewriteImagesF f cs
    else c :: rewriteImagesF f cs

/-- Lines 44–48 of the source: the Markdown-image path rewrite. -/
def rewriteImages (cs : List Char) : List Char :=
  rewriteImagesF cs.length cs

/-! ### Step 4: the raw `<img>` rewrite

`re.sub(r'<img[^>]*src=["\']([^"\']+)["\'][^>]*>', lambda m: f"![Image](./images/{Path(m.group(1)).name})", content)`

After the literal `<img`, the first `[^>]*` confines the start of `src=`
to the `>`-free run that follows; backtracking from the greedy `[^>]*`
means the rightmost workable `src=` wins.  The quoted value runs to the
first quote character of either kind (and may cross `>`), and the final
`[^>]*>` ends the match at the first `>` after the closing quote. -/

/-- Is this one of the two quote characters of the class `["\']`? -/
def isQuote (c : Char) : Bool :=
  c = dquote || c = squote

/-- Try to read `src=` + quote + nonempty unquoted run + quote + `[^>]*>`
starting exactly here; returns the `src` value and the input remaining
after the closing `>`. -/
def trySrc : List Char → Option (List Char × List Char)
  | 's' :: 'r' :: 'c' :: '=' :: q :: rest =>
    if isQuote q then
      match splitUntilP isQuote rest with
      | some (v, rest2) =>
        if v = [] then none
        else (splitUntilP (fun c => c = '>') rest2).map (fun pr => (v, pr.2))
      | none => none
    else none
  | _ => none

/-- Search the `>`-free run after `<img` for the rightmost position where
`trySrc` completes (the regex engine backtracks the greedy `[^>]*` from
longest, so later candidates are preferred). -/
def imgTagTail : List Char → Option (List Char × List Char)
  | [] => none
  | c :: cs =>
    if c = '>' then none
    else
      match imgTagTail cs with
      | some r => some r
      | none => trySrc (c :: cs)

/-- The `<img>` substitution with explicit fuel: at `<img`, a successful
match is replaced by `![Image](./images/<basename>)`; on failure the `<`
is emitted and the scan resumes at the next character. -/
def rewriteImgTagsF : Nat → List Char → List Char
  | 0, cs => cs
  | _ + 1, [] => []
  | f + 1, c :: cs =>
    if c = '<' ∧ "img".data.isPrefixOf cs then
      match imgTagTail (cs.drop 3) with
      | some (v, rest) =>
        "![Image](./images/".data ++ pathNameL v ++ ')' :: rewriteImgTagsF f rest
      | none => c :: rewriteImgTagsF f cs
    else c :: rewriteImgTagsF f cs

/-- Lines 50–55 of the source: the `<img ... src=... >` rewrite. -/
def rewriteImgTags (cs : List Char) : List Char :=
  rewriteImgTagsF cs.length cs

/-- Embeds `convert_mdx_to_markdown(content, images_folder, file_path)`
(lines 38–57 of the source): the four `re.sub` passes in order.  As in
the source, `images_folder` and `file_path` do not occur in the body. -/
def convert_mdx_to_markdown (content images_folder file_path : String) : String :=
  let s1 := stripTags content.data
  let s2 := stripBraces s1
  let s3 := rewriteImages s2
  let s4 := rewriteImgTags s3
  String.mk s4

/-- Effectful embedding of `convert_mdx_to_markdown` against the
filesystem model: the Python body consists of four `re.sub` calls and
performs no filesystem operation, so the state passes through unchanged
and the result is the pure transform of the content. -/
def convert_mdx_to_markdown_fs (content images_folder file_path : String) (fs : FS) :
    String × FS :=
  (convert_mdx_to_markdown content images_folder file_path, fs)

/-! ### The HTML converter

`convert_html_to_markdown` parses its input with BeautifulSoup and then
walks the parsed tree; the embedding starts from the parsed tree.  The
tree is a rose tree of elements (tag, attributes, children) and text
nodes; children are a mutually defined list so that all functions are
structurally recursive and evaluate by `decide`. -/

mutual
/-- A parsed HTML node: a text node or an element with tag name,
attributes and children. -/
inductive Html where
  | text (s : String)
  | elem (tag : String) (attrs : List (String × String)) (children : HtmlList)
deriving DecidableEq

/-- Children of an element, in document order. -/
inductive HtmlList where
  | nil
  | cons (h : Html) (t : HtmlList)
deriving DecidableEq
end

/-- The tag name of a node (text nodes have none). -/
def tagName : Html → Option String
  | .text _ => none
  | .elem t _ _ => some t

/-- Embeds `tag.get(key)`: first attribute of that name, if any. -/
def attrGet (h : Html) (key : String) : Option String :=
  match h with
  | .text _ => none
  | .elem _ attrs _ => attrs.lookup key

mutual
/-- Embeds `tag.get_text()`: the concatenation, in document order, of every
descendant text node. -/
def getText : Html → String
  | .text s => s
  | .elem _ _ c => getTextL c

/-- Embeds `get_text` over a child list. -/
def getTextL : HtmlList → String
  | .nil => ""
  | .cons h t => getText h ++ getTextL t
end

mutual
/-- Embeds `soup.find_all(tags)`: every element whose tag name is in `tags`,
in document order (an element precedes its descendants). -/
def findAll (tags : List String) : Html → List Html
  | .text _ => []
  | .elem t a c =>
    (if t ∈ tags then [Html.elem t a c] else []) ++ findAllL tags c

/-- Embeds `find_all` over a child list. -/
def findAllL (tags : List String) : HtmlList → List Html
  | .nil => []
  | .cons h rest => findAll tags h ++ findAllL tags rest
end

mutual
/-- Every element of the tree in document order (used to state what
"document order" means, independently of `findAll`). -/
def allElems : Html → List Html
  | .text _ => []
  | .elem t a c => Html.elem t a c :: allElemsL c

/-- Extends `allElems` over a child list. -/
def allElemsL : HtmlList → List Html
  | .nil => []
  | .cons h rest => allElems h ++ allElemsL rest
end

/-- The heading tags the converter looks for. -/
def headingTags : List String := ["h1", "h2", "h3", "h4", "h5", "h6"]

/-- Embeds `int(header_tag.name[1])`: the digit of the heading tag's name. -/
def hLevel (t : String) : Nat :=
  if t = "h1" then 1
  else if t = "h2" then 2
  else if t = "h3" then 3
  else if t = "h4" then 4
  else if t = "h5" then 5
  else if t = "h6" then 6
  else 0

/-- Embeds the join of the parts with blank lines. -/
def joinParts : List String → String
  | [] => ""
  | [x] => x
  | x :: xs => x ++ "\n\n" ++ joinParts xs

/-- The image loop of `convert_html_to_markdown` (lines 74–87): for each
`<img>` with a truthy `src`, copy the resolved source file into the
centralized folder when it exists, and emit the rewritten reference;
the filesystem threads through the loop. -/
def processImgs (images_folder file_path : String) : List Html → FS → List String × FS
  | [], fs => ([], fs)
  | img :: rest, fs =>
    match attrGet img "src" with
    | some src =>
      if src = "" then processImgs images_folder file_path rest fs
      else
        let img_name := pathName src
        let source_image_path := joinPath (pathParent file_path) src
        let fs1 :=
          if fsExists fs source_image_path then
            fsCopy fs source_image_path (joinPath images_folder img_name)
          else fs
        let pr := processImgs images_folder file_path rest fs1
        (("![" ++ ((attrGet img "alt").getD "") ++ "](./images/" ++ img_name ++ ")") :: pr.1, pr.2)
    | none => processImgs images_folder file_path rest fs

/-- Embeds `convert_html_to_markdown(html_content, images_folder, file_path)`
(lines 60–97 of the source), from the parsed tree: four `find_all`
passes — headings, paragraphs, images (routed through the asset copy),
links — appended into one list and joined with blank lines. -/
def convert_html_to_markdown (html : Html) (images_folder file_path : String) (fs : FS) :
    String × FS :=
  let headers := (findAll headingTags html).map
    (fun e => String.mk (List.replicate (hLevel ((tagName e).getD "")) '#') ++ " " ++ getText e)
  let paras := (findAll ["p"] html).map getText
  let imgs := processImgs images_folder file_path (findAll ["img"] html) fs
  let links := (findAll ["a"] html).filterMap
    (fun e =>
      match attrGet e "href" with
      | some href => if href = "" then none else some ("[" ++ getText e ++ "](" ++ href ++ ")")
      | none => none)
  (joinParts (headers ++ paras ++ imgs.1 ++ links), imgs.2)

/-! The predicates below describe inputs syntactically, through the same
match functions as the scanners: whether some position of the text
carries a match of the corresponding pattern. -/

/-- Does some position of the text match `op [^op cl]+ cl`? -/
def hasDelim (op cl : Char) : List Char → Bool
  | [] => false
  | c :: cs =>
    (if c = op then (delimMatch op cl cs).isSome else false) || hasDelim op cl cs

/-- Does some position of the text match the Markdown-image pattern? -/
def hasImage : List Char → Bool
  | [] => false
  | c :: cs =>
    (if c = '!' ∧ "[".data.isPrefixOf cs then (imageMatch (cs.drop 1)).isSome else false)
      || hasImage cs

/-- Does some position of the text match the `<img ... src=... >` pattern? -/
def hasImgTag : List Char → Bool
  | [] => false
  | c :: cs =>
    (if c = '<' ∧ "img".data.isPrefixOf cs then (imgTagTail (cs.drop 3)).isSome else false)
      || hasImgTag cs

/-- Does no line of the text begin with `import` or with `export`?
Lines are the segments between newline characters. -/
def noImportExport (s : String) : Bool :=
  (splitOnChar '\n' s.data).all
    (fun l => !("import".data.isPrefixOf l) && !("export".data.isPrefixOf l))

/-- Is a matched image path already of the rewritten form
`./images/<name>` with `<name>` a plain basename (nonempty, no
separator, not `.`), so that rewriting it reproduces it verbatim? -/
def goodPath (p : List Char) : Bool :=
  "./images/".data.isPrefixOf p &&
    (!(p.drop 9 == []) && (!((p.drop 9).contains '/') && !(p.drop 9 == ['.'])))

/-- Scan the text exactly as `rewriteImagesF` does and require every
image match encountered to have a `goodPath` path. -/
def goodImagesF : Nat → List Char → Bool
  | 0, _ => true
  | _ + 1, [] => true
  | f + 1, c :: cs =>
    if c = '!' ∧ "[".data.isPrefixOf cs then
      match imageMatch (cs.drop 1) with
      | some (_, path, rest) => goodPath path && goodImagesF f rest
      | none => goodImagesF f cs
    else goodImagesF f cs

/-- Every image match of the text has an already-rewritten path. -/
def goodImages (cs : List Char) : Bool :=
  goodImagesF cs.length cs

/-- Does `sub` occur as a contiguous run inside `l`? -/
def infixOf (sub : List Char) : List Char → Bool
  | [] => sub.isEmpty
  | c :: cs => sub.isPrefixOf (c :: cs) || infixOf sub cs

/-- Substring test on strings. -/
def strContains (s sub : String) : Bool :=
  infixOf sub.data s.data

/-- Image references of a parsed document: the `(alt, src)` pairs of the
`<img>` elements whose `src` attribute is present and nonempty, in
document order, exactly the references the image loop emits. -/
def imgRefs (h : Html) : List (String × String) :=
  (findAll ["img"] h).filterMap
    (fun e =>
      match attrGet e "src" with
      | some src => if src = "" then none else some ((attrGet e "alt").getD "", src)
      | none => none)

/-- The line the image loop emits for one image reference. -/
def imgLine (e : Html) : Option String :=
  match attrGet e "src" with
  | some src =>
    if src = "" then none
    else some ("![" ++ ((attrGet e "alt").getD "") ++ "](./images/" ++ pathName src ++ ")")
  | none => none

/-- The heading line emitted for a heading element. -/
def headingLine (e : Html) : String :=
  String.mk (List.replicate (hLevel ((tagName e).getD "")) '#') ++ " " ++ getText e

/-- The link line emitted for an anchor element, when its `href` is
present and nonempty. -/
def linkLine (e : Html) : Option String :=
  match attrGet e "href" with
  | some href => if href = "" then none else some ("[" ++ getText e ++ "](" ++ href ++ ")")
  | none => none

/-- Is the element's tag name one of `tags`? -/
def elemTagIn (tags : List String) (e : Html) : Bool :=
  match tagName e with
  | some t => decide (t ∈ tags)
  | none => false

/-- Decidable form of "every image reference of the document resolves to
a missing source file": for each `<img>` with a present, nonempty `src`,
the path resolved against the document's directory is absent from the
filesystem. -/
def imgsAllMissing (h : Html) (file_path : String) (fs : FS) : Bool :=
  (findAll ["img"] h).all
    (fun e =>
      match attrGet e "src" with
      | some src =>
        if src = "" then true
        else !(fsExists fs (joinPath (pathParent file_path) src))
      | none => true)

/-! Fixtures used by the concrete witness and counterexample theorems. -/

/-- The import/export scenario input of the specification (§8), built
without a literal quote character. -/
def scenarioImports : String :=
  "import Foo from " ++ String.mk [squote] ++ "x" ++ String.mk [squote]
    ++ "\nexport default Foo\nBody text"

/-- The mixed MDX scenario input of the specification (§8). -/
def scenarioMixed : String :=
  "# Hi\n<div>\x7bx\x7d</div>\n![pic](img/a.png)\n"

/-- A one-image parsed HTML document used as a witness. -/
def htmlImgDoc : Html :=
  .elem "body" []
    (.cons (.elem "h1" [] (.cons (.text "Title") .nil))
      (.cons (.elem "img" [("src", "img/a.png"), ("alt", "pic")] .nil) .nil))

/-! Lemmas about the splitting helpers. -/

theorem splitUntilP_append (pred : Char → Bool) (a : List Char) (c : Char) (r : List Char)
    (ha : ∀ x ∈ a, pred x = false) (hc : pred c = true) :
    splitUntilP pred (a ++ c :: r) = some (a, r) := by
  induction a with
  | nil => simp [splitUntilP, hc]
  | cons x xs ih =>
    have hx : pred x = false := ha x (by simp)
    simp [splitUntilP, hx, ih (fun y hy => ha y (by simp [hy]))]

theorem splitUntilP_eq_some (pred : Char → Bool) :
    ∀ cs a r, splitUntilP pred cs = some (a, r) →
      ∃ c, cs = a ++ c :: r ∧ pred c = true ∧ ∀ x ∈ a, pred x = false := by
  intro cs
  induction cs with
  | nil => intro a r h; simp [splitUntilP] at h
  | cons c cs ih =>
    intro a r h
    simp only [splitUntilP] at h
    by_cases hc : pred c = true
    · rw [if_pos hc] at h
      simp only [Option.some.injEq, Prod.mk.injEq] at h
      obtain ⟨h1, h2⟩ := h
      subst h1; subst h2
      exact ⟨c, rfl, hc, by simp⟩
    · rw [if_neg hc] at h
      cases hsplit : splitUntilP pred cs with
      | none => rw [hsplit] at h; simp at h
      | some pr =>
        obtain ⟨a', r'⟩ := pr
        rw [hsplit] at h
        simp only [Option.map_some', Option.some.injEq, Prod.mk.injEq] at h
        obtain ⟨h1, h2⟩ := h
        subst h1; subst h2
        obtain ⟨sep, rfl, hsep, hall⟩ := ih a' r' hsplit
        refine ⟨sep, by simp, hsep, ?_⟩
        intro x hx
        rcases List.mem_cons.mp hx with rfl | hx'
        · simpa using hc
        · exact hall x hx'

theorem splitOnChar_no_sep (sep : Char) :
    ∀ cs, (∀ c ∈ cs, c ≠ sep) → splitOnChar sep cs = [cs] := by
  intro cs h
  induction cs with
  | nil => rfl
  | cons c cs ih =>
    have hc : c ≠ sep := h c (by simp)
    simp [splitOnChar, hc, ih (fun x hx => h x (by simp [hx]))]

theorem mem_splitOnChar (sep : Char) :
    ∀ cs g, g ∈ splitOnChar sep cs → ∀ c ∈ g, c ∈ cs := by
  intro cs
  induction cs with
  | nil =>
    intro g hg c hc
    simp [splitOnChar] at hg
    subst hg
    simp at hc
  | cons x cs ih =>
    intro g hg c hc
    by_cases hx : x = sep
    · simp [splitOnChar, hx] at hg
      rcases hg with rfl | hg'
      · simp at hc
      · exact List.mem_cons_of_mem _ (ih g hg' c hc)
    · simp only [splitOnChar, if_neg hx] at hg
      cases hrec : splitOnChar sep cs with
      | nil =>
        rw [hrec] at hg
        simp at hg
        subst hg
        simp at hc
        simp [hc]
      | cons g0 gs =>
        rw [hrec] at hg
        rcases List.mem_cons.mp hg with rfl | hg'
        · rcases List.mem_cons.mp hc with rfl | hc'
          · simp
          · exact List.mem_cons_of_mem _ (ih g0 (hrec ▸ List.mem_cons_self g0 gs) c hc')
        · exact List.mem_cons_of_mem _ (ih g (hrec ▸ List.mem_cons_of_mem g0 hg') c hc)

theorem pathNameL_subset (p : List Char) : ∀ c ∈ pathNameL p, c ∈ p := by
  intro c hc
  unfold pathNameL at hc
  cases hl : (splitOnChar '/' p).filter (fun comp => !(comp == []) && !(comp == ['.'])) with
  | nil => rw [hl] at hc; simp [List.getLastD] at hc
  | cons g gs =>
    rw [hl] at hc
    have hmem : (g :: gs).getLastD [] ∈ g :: gs := by
      rw [List.getLastD_eq_getLast?]
      cases hlast : (g :: gs).getLast? with
      | none => simp at hlast
      | some y =>
        simp only [Option.getD_some]
        exact List.mem_of_mem_getLast? hlast
    have hfil : (g :: gs).getLastD [] ∈ (splitOnChar '/' p).filter
        (fun comp => !(comp == []) && !(comp == ['.'])) := hl ▸ hmem
    exact mem_splitOnChar '/' p _ (List.mem_of_mem_filter hfil) c hc

/-! Identity lemmas: a substitution whose pattern matches at no position
of the text returns the text unchanged (with any fuel). -/

theorem stripDelimsF_id (op cl : Char) :
    ∀ f cs, hasDelim op cl cs = false → stripDelimsF op cl f cs = cs := by
  intro f
  induction f with
  | zero => intro cs _; rfl
  | succ f ih =>
    intro cs h
    cases cs with
    | nil => rfl
    | cons c cs =>
      by_cases hc : c = op
      · simp only [hasDelim, hc, if_pos rfl, Bool.or_eq_false_iff] at h
        have hnone : delimMatch op cl cs = none := by
          cases hm : delimMatch op cl cs with
          | none => rfl
          | some r => rw [hm] at h; simp at h
        simp [stripDelimsF, hc, hnone, ih cs h.2]
      · have h' : hasDelim op cl cs = false := by
          simp only [hasDelim, hc, if_neg hc, Bool.or_eq_false_iff] at h
          exact h.2
        simp [stripDelimsF, hc, ih cs h']

theorem hasDelim_false_of_no_open (op cl : Char) :
    ∀ cs, (∀ c ∈ cs, c ≠ op) → hasDelim op cl cs = false := by
  intro cs h
  induction cs with
  | nil => rfl
  | cons c cs ih =>
    have hc : c ≠ op := h c (by simp)
    simp [hasDelim, hc, ih (fun x hx => h x (by simp [hx]))]

theorem rewriteImagesF_id (f : Nat) :
    ∀ cs, hasImage cs = false → rewriteImagesF f cs = cs := by
  induction f with
  | zero => intro cs _; rfl
  | succ f ih =>
    intro cs h
    cases cs with
    | nil => rfl
    | cons c cs =>
      by_cases hc : c = '!' ∧ "[".data.isPrefixOf cs
      · simp only [hasImage, if_pos hc, Bool.or_eq_false_iff] at h
        have hnone : imageMatch (cs.drop 1) = none := by
          cases hm : imageMatch (cs.drop 1) with
          | none => rfl
          | some r => rw [hm] at h; simp at h
        simp only [rewriteImagesF, if_pos hc, hnone]
        exact congrArg (c :: ·) (ih cs h.2)
      · have h' : hasImage cs = false := by
          simp only [hasImage, if_neg hc, Bool.or_eq_false_iff] at h
          exact h.2
        simp only [rewriteImagesF, if_neg hc]
        exact congrArg (c :: ·) (ih cs h')

theorem hasImage_false_of_no_bang :
    ∀ cs, (∀ c ∈ cs, c ≠ '!') → hasImage cs = false := by
  intro cs h
  induction cs with
  | nil => rfl
  | cons c cs ih =>
    have hc : c ≠ '!' := h c (by simp)
    have hcond : ¬(c = '!' ∧ "[".data.isPrefixOf cs) := fun hcc => hc hcc.1
    simp only [hasImage, if_neg hcond, Bool.false_or]
    exact ih (fun x hx => h x (by simp [hx]))

theorem rewriteImgTagsF_id (f : Nat) :
    ∀ cs, hasImgTag cs = false → rewriteImgTagsF f cs = cs := by
  induction f with
  | zero => intro cs _; rfl
  | succ f ih =>
    intro cs h
    cases cs with
    | nil => rfl
    | cons c cs =>
      by_cases hc : c = '<' ∧ "img".data.isPrefixOf cs
      · simp only [hasImgTag, if_pos hc, Bool.or_eq_false_iff] at h
        have hnone : imgTagTail (cs.drop 3) = none := by
          cases hm : imgTagTail (cs.drop 3) with
          | none => rfl
          | some r => rw [hm] at h; simp at h
        simp only [rewriteImgTagsF, if_pos hc, hnone]
        exact congrArg (c :: ·) (ih cs h.2)
      · have h' : hasImgTag cs = false := by
          simp only [hasImgTag, if_neg hc, Bool.or_eq_false_iff] at h
          exact h.2
        simp only [rewriteImgTagsF, if_neg hc]
        exact congrArg (c :: ·) (ih cs h')

theorem hasImgTag_false_of_no_lt :
    ∀ cs, (∀ c ∈ cs, c ≠ '<') → hasImgTag cs = false := by
  intro cs h
  induction cs with
  | nil => rfl
  | cons c cs ih =>
    have hc : c ≠ '<' := h c (by simp)
    have hcond : ¬(c = '<' ∧ "img".data.isPrefixOf cs) := fun hcc => hc hcc.1
    simp only [hasImgTag, if_neg hcond, Bool.false_or]
    exact ih (fun x hx => h x (by simp [hx]))

/-- A prefix occurrence makes `infixOf` true. -/
theorem infixOf_of_startsWith (sub : List Char) :
    ∀ l, sub.isPrefixOf l = true → infixOf sub l = true := by
  intro l hpre
  cases l with
  | nil =>
    cases sub with
    | nil => rfl
    | cons x xs => simp [List.isPrefixOf] at hpre
  | cons c cs => simp [infixOf, hpre]

/-- An actual contiguous occurrence makes `infixOf` true. -/
theorem infixOf_of_occurs (sub : List Char) :
    ∀ l, sub <:+: l → infixOf sub l = true := by
  intro l h
  obtain ⟨s, t, rfl⟩ := h
  induction s with
  | nil =>
    simp only [List.nil_append]
    exact infixOf_of_startsWith sub (sub ++ t) ( List.isPrefixOf_iff_prefix.mpr ⟨t, rfl⟩)
  | cons c s ih =>
    simp only [List.cons_append, infixOf, Bool.or_eq_true]
    exact Or.inr ih

/-! Lemmas about the Markdown-image match. -/

theorem imageMatch_of_shape (a p r : List Char)
    (ha : ∀ x ∈ a, x ≠ ']') (hp : ∀ x ∈ p, x ≠ ')') (hne : p ≠ []) :
    imageMatch (a ++ ']' :: '(' :: (p ++ ')' :: r)) = some (a, p, r) := by
  have h1 : splitUntilP (fun c => c = ']') (a ++ ']' :: ('(' :: (p ++ ')' :: r)))
      = some (a, '(' :: (p ++ ')' :: r)) :=
    splitUntilP_append _ a ']' _ (fun x hx => by simp [ha x hx]) (by simp)
  have h2 : splitUntilP (fun c => c = ')') (p ++ ')' :: r) = some (p, r) :=
    splitUntilP_append _ p ')' r (fun x hx => by simp [hp x hx]) (by simp)
  simp only [imageMatch, h1, h2, if_neg hne]

theorem imageMatch_shape (cs : List Char) (a p r : List Char)
    (h : imageMatch cs = some (a, p, r)) :
    cs = a ++ ']' :: '(' :: (p ++ ')' :: r)
      ∧ (∀ x ∈ a, x ≠ ']') ∧ (∀ x ∈ p, x ≠ ')') ∧ p ≠ [] := by
  unfold imageMatch at h
  cases h1 : splitUntilP (fun c => c = ']') cs with
  | none => rw [h1] at h; simp at h
  | some pr1 =>
    obtain ⟨alt, r1⟩ := pr1
    rw [h1] at h
    obtain ⟨c1, rfl, hc1, hall1⟩ := splitUntilP_eq_some _ cs alt r1 h1
    have hc1' : c1 = ']' := by simpa using hc1
    subst hc1'
    cases r1 with
    | nil => simp at h
    | cons c2 r2 =>
      by_cases hc2 : c2 = '('
      · subst hc2
        simp only at h
        cases h2 : splitUntilP (fun c => c = ')') r2 with
        | none => rw [h2] at h; simp at h
        | some pr2 =>
          obtain ⟨path, r3⟩ := pr2
          rw [h2] at h
          obtain ⟨c3, rfl, hc3, hall3⟩ := splitUntilP_eq_some _ r2 path r3 h2
          have hc3' : c3 = ')' := by simpa using hc3
          subst hc3'
          by_cases hpe : path = []
          · simp [hpe] at h
          · simp only [hpe, if_neg hpe, Option.some.injEq, Prod.mk.injEq] at h
            obtain ⟨rfl, rfl, rfl⟩ := h
            exact ⟨rfl, fun x hx => by simpa using hall1 x hx,
              fun x hx => by simpa using hall3 x hx, hpe⟩
      · exfalso
        simp only at h
        split at h
        · rename_i r2a heq
          injection heq with he1 he2
          exact hc2 he1
        · simp at h

/-- Scanning a `!`-free prefix copies it verbatim, consuming one unit of
fuel per character. -/
theorem rewriteImagesF_copy :
    ∀ (u : List Char) (f : Nat) (rest : List Char), (∀ c ∈ u, c ≠ '!') →
      rewriteImagesF (f + u.length) (u ++ rest) = u ++ rewriteImagesF f rest := by
  intro u
  induction u with
  | nil => intro f rest _; rfl
  | cons c u ih =>
    intro f rest h
    have hc : c ≠ '!' := h c (by simp)
    have hcond : ¬(c = '!' ∧ "[".data.isPrefixOf (u ++ rest)) := fun hcc => hc hcc.1
    show rewriteImagesF ((f + u.length) + 1) (c :: (u ++ rest)) = c :: (u ++ rewriteImagesF f rest)
    simp only [rewriteImagesF, if_neg hcond]
    exact congrArg (c :: ·) (ih f rest (fun x hx => h x (by simp [hx])))

/-- Scanning a well-shaped image construct rewrites it and continues
after it. -/
theorem rewriteImagesF_match (f : Nat) (a p r : List Char)
    (ha : ∀ x ∈ a, x ≠ ']') (hp : ∀ x ∈ p, x ≠ ')') (hne : p ≠ []) :
    rewriteImagesF (f + 1) ('!' :: '[' :: (a ++ ']' :: '(' :: (p ++ ')' :: r))) =
      '!' :: '[' :: (a ++ ']' :: '(' :: ("./images/".data ++ pathNameL p ++ ')' :: rewriteImagesF f r)) := by
  have hcond : ('!' : Char) = '!' ∧ "[".data.isPrefixOf ('[' :: (a ++ ']' :: '(' :: (p ++ ')' :: r))) := by
    refine ⟨rfl, ?_⟩
    simp [List.isPrefixOf]
  simp only [rewriteImagesF, if_pos hcond, List.drop_succ_cons, List.drop_zero,
    imageMatch_of_shape a p r ha hp hne]
  simp [List.append_assoc]

/-- A `goodPath` path is literally `./images/` followed by its basename,
so the rewrite reproduces it. -/
theorem goodPath_spec (p : List Char) (h : goodPath p = true) :
    "./images/".data ++ pathNameL p = p := by
  simp only [goodPath, Bool.and_eq_true] at h
  obtain ⟨hpre, hnil, hsep, hdot⟩ := h
  obtain ⟨t, ht⟩ := List.isPrefixOf_iff_prefix.mp hpre
  have hdropt : p.drop 9 = t := by
    rw [← ht]
    have h9 : ("./images/".data).length = 9 := by decide
    rw [← h9, List.drop_left]
  rw [hdropt] at hnil hsep hdot
  have htne : t ≠ [] := by
    intro hteq; rw [hteq] at hnil; simp at hnil
  have htdot : t ≠ ['.'] := by
    intro hteq; rw [hteq] at hdot; simp at hdot
  have htsep : ∀ c ∈ t, c ≠ '/' := by
    intro c hc
    intro hceq
    rw [List.contains_eq_any_beq] at hsep
    simp at hsep
    exact (hsep c hc) hceq.symm
  have hname : pathNameL p = t := by
    rw [← ht]
    show (((splitOnChar '/' ('.' :: '/' :: 'i' :: 'm' :: 'a' :: 'g' :: 'e' :: 's' :: '/' :: t))).filter
      (fun comp => !(comp == []) && !(comp == ['.']))).getLastD [] = t
    rw [show splitOnChar '/' ('.' :: '/' :: 'i' :: 'm' :: 'a' :: 'g' :: 'e' :: 's' :: '/' :: t)
        = ['.'] :: ('i' :: 'm' :: 'a' :: 'g' :: 'e' :: 's' :: []) :: splitOnChar '/' t by
      simp [splitOnChar]]
    rw [splitOnChar_no_sep '/' t htsep]
    have h1 : t.isEmpty = false := by
      cases t with
      | nil => exact absurd rfl htne
      | cons a b => rfl
    have h2 : (t == ['.']) = false := by
      simp only [beq_eq_false_iff_ne, ne_eq]
      exact htdot
    simp [List.filter, h1, h2, List.getLast?]
  rw [hname, ht]

/-- When every image match of the text already carries a `./images/`
basename path, the image rewrite is the identity. -/
theorem rewriteImagesF_id_of_good :
    ∀ (f : Nat) (cs : List Char), goodImagesF f cs = true → rewriteImagesF f cs = cs := by
  intro f
  induction f with
  | zero => intro cs _; rfl
  | succ f ih =>
    intro cs h
    cases cs with
    | nil => rfl
    | cons c cs =>
      by_cases hc : c = '!' ∧ "[".data.isPrefixOf cs
      · simp only [goodImagesF, if_pos hc] at h
        cases hm : imageMatch (cs.drop 1) with
        | none =>
          rw [hm] at h
          simp only [rewriteImagesF, if_pos hc, hm]
          exact congrArg (c :: ·) (ih cs h)
        | some tr =>
          obtain ⟨alt, path, rest⟩ := tr
          rw [hm] at h
          simp only [Bool.and_eq_true] at h
          obtain ⟨hgood, hrest⟩ := h
          obtain ⟨hshape, _, _, _⟩ := imageMatch_shape _ alt path rest hm
          obtain ⟨hb, hcs⟩ := hc
          obtain ⟨tl, htl⟩ := List.isPrefixOf_iff_prefix.mp hcs
          have hcs' : cs = '[' :: tl := by rw [← htl]; rfl
          have hdrop : cs.drop 1 = tl := by rw [hcs']; rfl
          rw [hdrop] at hshape
          simp only [rewriteImagesF, if_pos (⟨hb, hcs⟩ : c = '!' ∧ "[".data.isPrefixOf cs), hm]
          subst hb
          rw [hcs', hshape]
          have hrw := goodPath_spec path hgood
          rw [ih rest hrest]
          simp only [List.cons.injEq, true_and]
          conv_rhs => rw [← hrw]
      · simp only [goodImagesF, if_neg hc] at h
        simp only [rewriteImagesF, if_neg hc]
        exact congrArg (c :: ·) (ih cs h)

/-! Lemmas about the HTML converter. -/

mutual
theorem findAll_eq_filter (tags : List String) :
    ∀ h : Html, findAll tags h = (allElems h).filter (elemTagIn tags)
  | .text s => by simp [findAll, allElems]
  | .elem t a c => by
    by_cases ht : t ∈ tags
    · simp [findAll, allElems, elemTagIn, tagName, ht, List.filter_cons,
        findAllL_eq_filter tags c]
    · simp [findAll, allElems, elemTagIn, tagName, ht, List.filter_cons,
        findAllL_eq_filter tags c]

theorem findAllL_eq_filter (tags : List String) :
    ∀ l : HtmlList, findAllL tags l = (allElemsL l).filter (elemTagIn tags)
  | .nil => by simp [findAllL, allElemsL]
  | .cons h rest => by
    simp [findAllL, allElemsL, findAll_eq_filter tags h, findAllL_eq_filter tags rest,
      List.filter_append]
end

/-- The lines the image loop emits do not depend on the filesystem, and
are exactly the per-image lines in order. -/
theorem processImgs_parts (fld fp : String) :
    ∀ (l : List Html) (fs : FS), (processImgs fld fp l fs).1 = l.filterMap imgLine := by
  intro l
  induction l with
  | nil => intro fs; rfl
  | cons e l ih =>
    intro fs
    simp only [processImgs, imgLine, List.filterMap_cons]
    cases hsrc : attrGet e "src" with
    | none => exact ih _
    | some src =>
      by_cases hs : src = ""
      · simp only [hs, if_pos rfl]
        exact ih _
      · simp only [if_neg hs]
        simp [ih]

/-- When every image reference of the list resolves to a missing source
file, the image loop leaves the filesystem unchanged. -/
theorem processImgs_fs_of_missing (fld fp : String) :
    ∀ (l : List Html) (fs : FS),
      (∀ e ∈ l, ∀ src, attrGet e "src" = some src → src ≠ "" →
        fsExists fs (joinPath (pathParent fp) src) = false) →
      (processImgs fld fp l fs).2 = fs := by
  intro l
  induction l with
  | nil => intro fs _; rfl
  | cons e l ih =>
    intro fs h
    simp only [processImgs]
    cases hsrc : attrGet e "src" with
    | none => exact ih fs (fun x hx => h x (by simp [hx]))
    | some src =>
      by_cases hs : src = ""
      · simp only [hs, if_pos rfl]
        exact ih fs (fun x hx => h x (by simp [hx]))
      · simp only [if_neg hs]
        have hmiss : fsExists fs (joinPath (pathParent fp) src) = false :=
          h e (by simp) src hsrc hs
        simp only [hmiss, Bool.false_eq_true, if_neg (by simp : ¬false = true)]
        exact ih fs (fun x hx => h x (by simp [hx]))

/-- A part of the joined output occurs in the joined output. -/
theorem mem_joinParts_occurs :
    ∀ (L : List String) (x : String), x ∈ L → x.data <:+: (joinParts L).data := by
  intro L
  induction L with
  | nil => intro x hx; simp at hx
  | cons a L ih =>
    intro x hx
    cases L with
    | nil =>
      simp only [List.mem_singleton] at hx
      subst hx
      exact ⟨[], [], by simp [joinParts]⟩
    | cons b L2 =>
      rcases List.mem_cons.mp hx with rfl | hx2
      · refine ⟨[], ("\n\n" ++ joinParts (b :: L2)).data, ?_⟩
        simp [joinParts, String.data_append]
      · obtain ⟨s, t, hst⟩ := ih x hx2
        refine ⟨(a ++ "\n\n").data ++ s, t, ?_⟩
        simp only [joinParts, String.data_append, List.append_assoc]
        rw [List.append_assoc] at hst
        rw [hst]

/-! Claim theorems. -/

/-- C1, counterexample: the claim says the MDX transform strips lines
beginning with `import` or `export`, and in particular maps the scenario
input to `"Body text"`; the code has no such step, and the scenario input
is not mapped to `"Body text"`. -/
theorem claim_C1_counterexample :
    convert_mdx_to_markdown scenarioImports "images" "doc.mdx" ≠ "Body text" := by
  decide

/-- C1, amended: `convert_mdx_to_markdown` contains no import/export
stripping; lines beginning with `import` or `export` are left in place,
and the scenario input is returned unchanged. -/
theorem claim_C1_amended :
    convert_mdx_to_markdown scenarioImports "images" "doc.mdx" = scenarioImports := by
  decide

/-- C2, code evaluation at the failing input: the document references
`img/a.png`, the resolved source `docs/img/a.png` exists in the
filesystem, yet the MDX transform copies nothing — the filesystem is
returned unchanged and the assets-directory entry is absent — while the
reference is still rewritten.  (The claim and spec §4.1/§4.2 say the
file is copied into the assets directory, as the HTML path does.) -/
theorem claim_C2_code_evaluation :
    convert_mdx_to_markdown_fs "![pic](img/a.png)" "images" "docs/page.mdx"
        [("docs/img/a.png", "PNG")]
      = ("![pic](./images/a.png)", [("docs/img/a.png", "PNG")])
    ∧ fsExists [("docs/img/a.png", "PNG")] (joinPath (pathParent "docs/page.mdx") "img/a.png") = true
    ∧ fsExists [("docs/img/a.png", "PNG")] (joinPath "images" (pathName "img/a.png")) = false := by
  decide

/-- C3, counterexample: for the input `![a]({x})` — an image construct
whose path is a brace expression — the earlier brace-stripping step
destroys the construct, so the output does not contain the rewritten
reference `![a](./images/<basename>)` the claim promises for every
image construct. -/
theorem claim_C3_counterexample :
    strContains (convert_mdx_to_markdown "![a](\x7bx\x7d)" "images" "doc.mdx")
      ("![a](./images/" ++ pathName "\x7bx\x7d" ++ ")") = false := by
  decide

/-- C4, counterexample: on the scenario input the transform does not
return the spec's claimed string (which has three consecutive newlines
after `# Hi`). -/
theorem claim_C4_counterexample :
    convert_mdx_to_markdown scenarioMixed "images" "doc.mdx"
      ≠ "# Hi\n\n\n![pic](./images/a.png)\n" := by
  decide

/-- C4, amended: stripping `<div>`, `</div>` and `{x}` empties the middle
line, leaving two newlines (not three) between `# Hi` and the rewritten
image reference. -/
theorem claim_C4_amended :
    convert_mdx_to_markdown scenarioMixed "images" "doc.mdx"
      = "# Hi\n\n![pic](./images/a.png)\n" := by
  decide

/-- C7, counterexample: the claim says the brace stripper removes the
span `{a{b}` from `{a{b}c}`, leaving `c}`; the code's pattern
`{[^{}]+}` cannot cross a nested brace, so the output is not `c}`. -/
theorem claim_C7_counterexample :
    convert_mdx_to_markdown "\x7ba\x7bb\x7dc\x7d" "images" "doc.mdx" ≠ "c\x7d" := by
  decide

/-- C7, amended: on input `{a{b}c}` the brace-stripping step removes the
innermost span `{b}` (the only span the pattern `{[^{}]+}` can match),
producing `{ac}` — the outer brace characters survive. -/
theorem claim_C7_amended :
    convert_mdx_to_markdown "\x7ba\x7bb\x7dc\x7d" "images" "doc.mdx" = "\x7bac\x7d" := by
  decide

/-- C10: the MDX transform is a pure function of its content alone — the
result does not depend on `images_folder`, `file_path`, or the
filesystem, and the filesystem passes through unchanged (the Python body
is four `re.sub` calls and performs no I/O). -/
theorem claim_C10_pure (content f1 p1 f2 p2 : String) (fs1 fs2 : FS) :
    (convert_mdx_to_markdown_fs content f1 p1 fs1).1
        = (convert_mdx_to_markdown_fs content f2 p2 fs2).1
    ∧ (convert_mdx_to_markdown_fs content f1 p1 fs1).2 = fs1 :=
  ⟨rfl, rfl⟩

/-- C5: an input in which no position matches the tag pattern, the brace
pattern, the Markdown-image pattern or the `<img>` pattern, and no line
begins with `import` or `export`, is returned unchanged by the MDX
transform. -/
theorem claim_C5_unchanged (s fld fp : String)
    (h1 : hasDelim '<' '>' s.data = false)
    (h2 : hasDelim lbrace rbrace s.data = false)
    (h3 : hasImage s.data = false)
    (h4 : hasImgTag s.data = false)
    (_h5 : noImportExport s = true) :
    convert_mdx_to_markdown s fld fp = s := by
  simp only [convert_mdx_to_markdown, stripTags, stripBraces, rewriteImages, rewriteImgTags]
  rw [stripDelimsF_id '<' '>' _ _ h1, stripDelimsF_id lbrace rbrace _ _ h2,
    rewriteImagesF_id _ _ h3, rewriteImgTagsF_id _ _ h4]

/-- C5, witness: a concrete plain text satisfying the hypotheses is
returned unchanged. -/
theorem claim_C5_witness :
    convert_mdx_to_markdown "Hello world.\nSecond line of plain text." "images" "doc.mdx"
      = "Hello world.\nSecond line of plain text." :=
  claim_C5_unchanged "Hello world.\nSecond line of plain text." "images" "doc.mdx"
    (by decide) (by decide) (by decide) (by decide) (by decide)

/-- C6: on text already in transformed form — no tag match, no brace
match, no `<img>` match, and every Markdown-image match already of the
form `![alt](./images/<name>)` with `<name>` a plain basename — the MDX
transform is the identity, hence idempotent there. -/
theorem claim_C6_idempotent (s fld fp : String)
    (h1 : hasDelim '<' '>' s.data = false)
    (h2 : hasDelim lbrace rbrace s.data = false)
    (h3 : goodImages s.data = true)
    (h4 : hasImgTag s.data = false) :
    convert_mdx_to_markdown s fld fp = s
    ∧ convert_mdx_to_markdown (convert_mdx_to_markdown s fld fp) fld fp
        = convert_mdx_to_markdown s fld fp := by
  have hfix : convert_mdx_to_markdown s fld fp = s := by
    simp only [convert_mdx_to_markdown, stripTags, stripBraces, rewriteImages, rewriteImgTags]
    rw [stripDelimsF_id '<' '>' _ _ h1, stripDelimsF_id lbrace rbrace _ _ h2,
      rewriteImagesF_id_of_good _ _ h3, rewriteImgTagsF_id _ _ h4]
  exact ⟨hfix, by rw [hfix]; exact hfix⟩

/-- C6, witness: a concrete already-transformed text is a fixed point,
and a second application changes nothing. -/
theorem claim_C6_witness :
    convert_mdx_to_markdown "# Title\n![a](./images/b.png)\n" "images" "doc.mdx"
      = "# Title\n![a](./images/b.png)\n"
    ∧ convert_mdx_to_markdown
        (convert_mdx_to_markdown "# Title\n![a](./images/b.png)\n" "images" "doc.mdx")
        "images" "doc.mdx"
      = convert_mdx_to_markdown "# Title\n![a](./images/b.png)\n" "images" "doc.mdx" :=
  claim_C6_idempotent "# Title\n![a](./images/b.png)\n" "images" "doc.mdx"
    (by decide) (by decide) (by decide) (by decide)

/-- C9: for every parsed HTML document, the converter's output is the
blank-line join of four groups — heading lines, paragraph texts, image
lines, link lines — each group in document order (a filter of the single
document-order traversal `allElems`), rather than one interleaved
document-order sequence. -/
theorem claim_C9_grouped (h : Html) (fld fp : String) (fs : FS) :
    (convert_html_to_markdown h fld fp fs).1
      = joinParts ((((allElems h).filter (elemTagIn headingTags)).map headingLine)
          ++ (((allElems h).filter (elemTagIn ["p"])).map getText)
          ++ (((allElems h).filter (elemTagIn ["img"])).filterMap imgLine)
          ++ (((allElems h).filter (elemTagIn ["a"])).filterMap linkLine)) := by
  simp only [convert_html_to_markdown, findAll_eq_filter, processImgs_parts,
    headingLine, linkLine]
  rfl

/-- C8: when every image reference of the document resolves to a missing
source file, conversion leaves the filesystem unchanged (no file is
created in the assets directory) and raises no error, yet every
rewritten link `![alt](./images/<basename>)` is still emitted in the
output text. -/
theorem claim_C8_missing_asset (h : Html) (fld fp : String) (fs : FS)
    (hmiss : imgsAllMissing h fp fs = true) :
    (convert_html_to_markdown h fld fp fs).2 = fs
    ∧ ∀ e ∈ findAll ["img"] h, ∀ line, imgLine e = some line →
        strContains (convert_html_to_markdown h fld fp fs).1 line = true := by
  constructor
  · simp only [convert_html_to_markdown]
    apply processImgs_fs_of_missing
    intro e he src hsrc hs
    have hall := List.all_eq_true.mp hmiss e he
    rw [hsrc] at hall
    simp only [if_neg hs] at hall
    simpa using hall
  · intro e he line hline
    have hmem : line ∈ (processImgs fld fp (findAll ["img"] h) fs).1 := by
      rw [processImgs_parts]
      exact List.mem_filterMap.mpr ⟨e, he, hline⟩
    simp only [convert_html_to_markdown]
    apply infixOf_of_occurs
    apply mem_joinParts_occurs
    simp only [List.mem_append]
    exact Or.inl (Or.inr hmem)

/-- C8, witness: a concrete document whose single image source is absent
from an empty filesystem — nothing is copied, and the dangling rewritten
link is emitted. -/
theorem claim_C8_witness :
    (convert_html_to_markdown htmlImgDoc "images" "docs/page.html" []).2 = []
    ∧ strContains (convert_html_to_markdown htmlImgDoc "images" "docs/page.html" []).1
        "![pic](./images/a.png)" = true := by
  have h := claim_C8_missing_asset htmlImgDoc "images" "docs/page.html" [] (by decide)
  exact ⟨h.1, h.2 (Html.elem "img" [("src", "img/a.png"), ("alt", "pic")] .nil) (by decide)
    "![pic](./images/a.png)" (by decide)⟩

/-- C3, amended: the rewrite is guaranteed only when the image construct
(and its surrounding text) is not first destroyed by the tag- and
brace-stripping passes.  For an input `u ++ ![a](p) ++ v` in which no
part contains `<` or `{`, the alt text contains no `]`, the path is
nonempty and contains no `)`, and the context contains no `!`, the
transform rewrites the construct in place and the output contains
`![a](./images/<basename(p)>)`. -/
theorem claim_C3_amended (u a p v : List Char) (fld fp : String)
    (hu : ∀ c ∈ u, c ≠ '<' ∧ c ≠ lbrace ∧ c ≠ '!')
    (ha : ∀ c ∈ a, c ≠ '<' ∧ c ≠ lbrace ∧ c ≠ ']')
    (hp : ∀ c ∈ p, c ≠ '<' ∧ c ≠ lbrace ∧ c ≠ ')')
    (hpne : p ≠ [])
    (hv : ∀ c ∈ v, c ≠ '<' ∧ c ≠ lbrace ∧ c ≠ '!') :
    convert_mdx_to_markdown
        (String.mk (u ++ '!' :: '[' :: (a ++ ']' :: '(' :: (p ++ ')' :: v)))) fld fp
      = String.mk (u ++ '!' :: '[' :: (a ++ ']' :: '(' :: ("./images/".data ++ pathNameL p ++ ')' :: v)))
    ∧ strContains
        (convert_mdx_to_markdown
          (String.mk (u ++ '!' :: '[' :: (a ++ ']' :: '(' :: (p ++ ')' :: v)))) fld fp)
        (String.mk ('!' :: '[' :: (a ++ ']' :: '(' :: ("./images/".data ++ pathNameL p ++ [')'])))) = true := by
  have hL_lt : ∀ c ∈ u ++ '!' :: '[' :: (a ++ ']' :: '(' :: (p ++ ')' :: v)), c ≠ '<' := by
    intro c hc
    simp only [List.mem_append, List.mem_cons] at hc
    rcases hc with h | rfl | rfl | h | rfl | rfl | h | rfl | h
    · exact (hu c h).1
    · decide
    · decide
    · exact (ha c h).1
    · decide
    · decide
    · exact (hp c h).1
    · decide
    · exact (hv c h).1
  have hL_lb : ∀ c ∈ u ++ '!' :: '[' :: (a ++ ']' :: '(' :: (p ++ ')' :: v)), c ≠ lbrace := by
    intro c hc
    simp only [List.mem_append, List.mem_cons] at hc
    rcases hc with h | rfl | rfl | h | rfl | rfl | h | rfl | h
    · exact (hu c h).2.1
    · decide
    · decide
    · exact (ha c h).2.1
    · decide
    · decide
    · exact (hp c h).2.1
    · decide
    · exact (hv c h).2.1
  have hstrip1 : stripTags (u ++ '!' :: '[' :: (a ++ ']' :: '(' :: (p ++ ')' :: v)))
      = u ++ '!' :: '[' :: (a ++ ']' :: '(' :: (p ++ ')' :: v)) :=
    stripDelimsF_id '<' '>' _ _ (hasDelim_false_of_no_open '<' '>' _ hL_lt)
  have hstrip2 : stripBraces (u ++ '!' :: '[' :: (a ++ ']' :: '(' :: (p ++ ')' :: v)))
      = u ++ '!' :: '[' :: (a ++ ']' :: '(' :: (p ++ ')' :: v)) :=
    stripDelimsF_id lbrace rbrace _ _ (hasDelim_false_of_no_open lbrace rbrace _ hL_lb)
  have himg : rewriteImages (u ++ '!' :: '[' :: (a ++ ']' :: '(' :: (p ++ ')' :: v)))
      = u ++ '!' :: '[' :: (a ++ ']' :: '(' :: ("./images/".data ++ pathNameL p ++ ')' :: v)) := by
    rw [rewriteImages]
    have hlen : (u ++ '!' :: '[' :: (a ++ ']' :: '(' :: (p ++ ')' :: v))).length
        = (((a ++ ']' :: '(' :: (p ++ ')' :: v)).length + 1) + 1) + u.length := by
      simp [List.length_append]
      omega
    rw [hlen]
    rw [rewriteImagesF_copy u _ _ (fun c hc => (hu c hc).2.2)]
    congr 1
    rw [rewriteImagesF_match ((a ++ ']' :: '(' :: (p ++ ')' :: v)).length + 1) a p v
      (fun c hc => (ha c hc).2.2) (fun c hc => (hp c hc).2.2) hpne]
    rw [rewriteImagesF_id _ _ (hasImage_false_of_no_bang v (fun c hc => (hv c hc).2.2))]
  have hIM : ∀ x ∈ "./images/".data, x ≠ '<' := by decide
  have hR_lt : ∀ c ∈ u ++ '!' :: '[' :: (a ++ ']' :: '(' :: ("./images/".data ++ pathNameL p ++ ')' :: v)),
      c ≠ '<' := by
    intro c hc
    rcases List.mem_append.mp hc with h | h
    · exact (hu c h).1
    · rcases List.mem_cons.mp h with rfl | h
      · decide
      · rcases List.mem_cons.mp h with rfl | h
        · decide
        · rcases List.mem_append.mp h with h | h
          · exact (ha c h).1
          · rcases List.mem_cons.mp h with rfl | h
            · decide
            · rcases List.mem_cons.mp h with rfl | h
              · decide
              · rcases List.mem_append.mp h with h | h
                · rcases List.mem_append.mp h with h | h
                  · exact hIM c h
                  · exact (hp c (pathNameL_subset p c h)).1
                · rcases List.mem_cons.mp h with rfl | h
                  · decide
                  · exact (hv c h).1
  have himgtag : rewriteImgTags (u ++ '!' :: '[' :: (a ++ ']' :: '(' :: ("./images/".data ++ pathNameL p ++ ')' :: v)))
      = u ++ '!' :: '[' :: (a ++ ']' :: '(' :: ("./images/".data ++ pathNameL p ++ ')' :: v)) :=
    rewriteImgTagsF_id _ _ (hasImgTag_false_of_no_lt _ hR_lt)
  have hchain : convert_mdx_to_markdown
      (String.mk (u ++ '!' :: '[' :: (a ++ ']' :: '(' :: (p ++ ')' :: v)))) fld fp
      = String.mk (u ++ '!' :: '[' :: (a ++ ']' :: '(' :: ("./images/".data ++ pathNameL p ++ ')' :: v))) := by
    have h0 : convert_mdx_to_markdown
        (String.mk (u ++ '!' :: '[' :: (a ++ ']' :: '(' :: (p ++ ')' :: v)))) fld fp
        = String.mk (rewriteImgTags (rewriteImages (stripBraces (stripTags
            (u ++ '!' :: '[' :: (a ++ ']' :: '(' :: (p ++ ')' :: v))))))) := rfl
    rw [h0, hstrip1, hstrip2, himg, himgtag]
  refine ⟨hchain, ?_⟩
  rw [hchain]
  apply infixOf_of_occurs
  refine ⟨u, v, ?_⟩
  show u ++ ('!' :: '[' :: (a ++ ']' :: '(' :: ("./images/".data ++ pathNameL p ++ [')']))) ++ v
      = u ++ '!' :: '[' :: (a ++ ']' :: '(' :: ("./images/".data ++ pathNameL p ++ ')' :: v))
  simp [List.append_assoc]

/-- C3, witness: a concrete input with surrounding text; the construct is
rewritten in place and the rewritten reference occurs in the output. -/
theorem claim_C3_witness :
    strContains (convert_mdx_to_markdown "x ![alt](img/a.png) y" "images" "doc.mdx")
      "![alt](./images/a.png)" = true := by
  have h := (claim_C3_amended "x ".data "alt".data "img/a.png".data " y".data "images" "doc.mdx"
    (by decide) (by decide) (by decide) (by decide) (by decide)).2
  exact h

end MdxMd
